import Mathlib

/-!
Verification of the fst-number-normalizer repository (`src/normalize.py`).

The Python source is shallowly embedded: strings are `List Char`, Python
integers are `Int`, and code that can raise returns `Except String _`.
Python 3 string regexes are Unicode-aware, so the character classes are
modelled accordingly: `\d` as the full Unicode decimal-digit category Nd,
`str.isspace` by its complete character set, and the word characters of `\b`
by the ASCII word characters together with all decimal digits (Python's `\w`
additionally contains the non-ASCII letters, which no Lean-resident table
covers; every digit is a word character in both).  The single regex
`\b\d+\b` used by the source is modelled by an explicit left-to-right
scanner over maximal digit runs whose neighbours are not word characters.
-/

/-- First code point (the zero digit) of each run of the Unicode 15.0
decimal-digit category Nd; every Nd run is ten consecutive code points
0..9.  ASCII comes first so that the common case is found immediately. -/
def ndZeroPoints : List Nat :=
  [0x0030, 0x0660, 0x06F0, 0x07C0, 0x0966, 0x09E6, 0x0A66, 0x0AE6, 0x0B66,
   0x0BE6, 0x0C66, 0x0CE6, 0x0D66, 0x0DE6, 0x0E50, 0x0ED0, 0x0F20, 0x1040,
   0x1090, 0x17E0, 0x1810, 0x1946, 0x19D0, 0x1A80, 0x1A90, 0x1B50, 0x1BB0,
   0x1C40, 0x1C50, 0xA620, 0xA8D0, 0xA900, 0xA9D0, 0xA9F0, 0xAA50, 0xABF0,
   0xFF10, 0x104A0, 0x10D30, 0x11066, 0x110F0, 0x11136, 0x111D0, 0x112F0,
   0x11450, 0x114D0, 0x11650, 0x116C0, 0x11730, 0x118E0, 0x11950, 0x11C50,
   0x11D50, 0x11DA0, 0x11F50, 0x16A60, 0x16AC0, 0x16B50, 0x1D7CE, 0x1D7D8,
   0x1D7E2, 0x1D7EC, 0x1D7F6, 0x1E140, 0x1E2F0, 0x1E4F0, 0x1E950, 0x1FBF0]

/-- Character class of the regex `\d` on a Python `str`: the Unicode decimal
digits (category Nd), not only ASCII `0`-`9`. -/
def isDigitChar (c : Char) : Bool :=
  ndZeroPoints.any fun z => decide (z ≤ c.toNat ∧ c.toNat < z + 10)

/-- Numeric value of a Unicode decimal digit (its offset inside its Nd run);
0 on non-digits, which the scanner never passes in. -/
def unicodeDigitVal (c : Char) : Nat :=
  match ndZeroPoints.find? (fun z => decide (z ≤ c.toNat ∧ c.toNat < z + 10)) with
  | some z => c.toNat - z
  | none => 0

/-- Word characters of the regex `\b`: the ASCII word characters together
with every decimal digit.  Python's `\w` additionally contains the non-ASCII
letters, which this model omits for lack of a Unicode letter table; all
digits are word characters in both, which is what the proofs rely on. -/
def isWordChar (c : Char) : Bool := c.isAlphanum || c == '_' || isDigitChar c

/-- The complete character set of Python's `str.isspace`: ASCII whitespace,
the information separators U+001C-U+001F, NEL, NBSP, and the Unicode space
separators and line/paragraph separators. -/
def pyWhitespaceTable : List Char :=
  ['\t', '\n', '\x0b', '\x0c', '\r', '\x1c', '\x1d', '\x1e', '\x1f', ' ',
   '\u0085', '\u00a0', '\u1680', '\u2000', '\u2001', '\u2002', '\u2003',
   '\u2004', '\u2005', '\u2006', '\u2007', '\u2008', '\u2009', '\u200a',
   '\u2028', '\u2029', '\u202f', '\u205f', '\u3000']

/-- Model of Python's `str.isspace`. -/
def pyIsSpace (c : Char) : Bool :=
  pyWhitespaceTable.any fun w => w == c

/-- The `units` table of `number_to_words`. -/
def units : List String :=
  ["zero", "one", "two", "three", "four", "five", "six", "seven", "eight", "nine"]

/-- The `teens` table of `number_to_words`. -/
def teens : List String :=
  ["ten", "eleven", "twelve", "thirteen", "fourteen", "fifteen", "sixteen",
   "seventeen", "eighteen", "nineteen"]

/-- The `tens` table of `number_to_words`. -/
def tens : List String :=
  ["", "", "twenty", "thirty", "forty", "fifty", "sixty", "seventy", "eighty", "ninety"]

/-- The sub-hundred regime of `number_to_words` (branches `n < 10`, `10 <= n < 20`
and `n < 100` of the source, in source order).  The recursive call of the
source, `number_to_words(rest)` with `rest = n % 100` and `1 <= rest <= 99`,
only ever reaches these branches; it is modelled by this helper so that the
whole converter is structurally recursive (`number_to_words_small_eq` below
certifies that the inlining agrees with the main function on that regime). -/
def number_to_words_small (n : Nat) : String :=
  if n < 10 then units.getD n ""
  else if n < 20 then teens.getD (n - 10) ""
  else
    let t := n / 10
    let u := n % 10
    if u = 0 then tens.getD t ""
    else tens.getD t "" ++ "-" ++ units.getD u ""

/-- Body of `number_to_words` after its range guard (source lines 58-79). -/
def number_to_words_core (n : Nat) : String :=
  if n = 1000 then "one thousand"
  else if n < 10 then units.getD n ""
  else if n < 20 then teens.getD (n - 10) ""
  else if n < 100 then
    let t := n / 10
    let u := n % 10
    if u = 0 then tens.getD t ""
    else tens.getD t "" ++ "-" ++ units.getD u ""
  else
    let h := n / 100
    let rest := n % 100
    if rest = 0 then units.getD h "" ++ " hundred"
    else units.getD h "" ++ " hundred " ++ number_to_words_small rest

/-- Model of `number_to_words` (source lines 19-79): the Python function raises
`ValueError("number out of range (0-1000)")` unless `0 <= n <= 1000`. -/
def number_to_words (n : Int) : Except String String :=
  if 0 ≤ n ∧ n ≤ 1000 then .ok (number_to_words_core n.toNat)
  else .error "number out of range (0-1000)"

/-- The inlined sub-hundred helper agrees with the main body on the regime the
source's recursive call can reach. -/
theorem number_to_words_small_eq :
    ∀ m : Nat, m < 100 → number_to_words_core m = number_to_words_small m := by
  decide

/-- Digits-and-underscores tail of a Python integer literal: after the leading
digit, underscores may only appear singly and between digits. -/
def digitsUnderAux : List Char → Bool
  | [] => true
  | c :: cs =>
    if c == '_' then
      match cs with
      | [] => false
      | d :: _ => isDigitChar d && digitsUnderAux cs
    else isDigitChar c && digitsUnderAux cs

/-- A valid unsigned Python integer literal body: a digit followed by digits
with optional single separating underscores. -/
def pyIntLiteralValid (s : List Char) : Bool :=
  match s with
  | [] => false
  | c :: cs => isDigitChar c && digitsUnderAux cs

/-- Numeric value of a list of decimal digits. -/
def natOfDigits (s : List Char) : Nat :=
  s.foldl (fun a c => 10 * a + unicodeDigitVal c) 0

/-- Strip leading and trailing whitespace, as Python `int()` does. -/
def stripPy (s : List Char) : List Char :=
  ((s.dropWhile pyIsSpace).reverse.dropWhile pyIsSpace).reverse

/-- CPython's integer-string conversion digit limit
(`sys.int_info.default_max_str_digits`, CPython 3.11+ and the 3.8.14+
backports): a decimal `int()` conversion of more than this many digits
raises `ValueError`. -/
def pyIntMaxStrDigits : Nat := 4300

/-- Value branch of the modelled `int()`: the digit group's value, unless it
exceeds the conversion digit limit, which raises. -/
def pyIntValue (digits : List Char) : Option Int :=
  if pyIntMaxStrDigits < digits.length then none
  else some ((natOfDigits digits : Nat) : Int)

/-- Model of the Python builtin `int()` applied to a string: optional
surrounding whitespace, an optional sign, then a digit group (Unicode
decimal digits) with optional single underscores between digits, subject to
the conversion digit limit; `none` models the raised `ValueError`. -/
def parsePyInt (s : List Char) : Option Int :=
  let t := stripPy s
  if t.head? = some '-' then
    if pyIntLiteralValid t.tail then
      (pyIntValue (t.tail.filter fun c => !(c == '_'))).map (fun v => -v)
    else none
  else if t.head? = some '+' then
    if pyIntLiteralValid t.tail then
      pyIntValue (t.tail.filter fun c => !(c == '_'))
    else none
  else if pyIntLiteralValid t then
    pyIntValue (t.filter fun c => !(c == '_'))
  else none

/-- The backward negation scan of `repl` (source lines 96-103): starting just
before the token and walking left, skip whitespace; the token is suppressed
when the nearest non-whitespace character is a minus sign.  `revPre` is the
text before the token, reversed. -/
def precededByMinus (revPre : List Char) : Bool :=
  (revPre.dropWhile pyIsSpace).head? == some '-'

/-- Model of the inner `repl` function of `replace_numbers_in_text` (source
lines 90-117), applied to a matched token `s` whose reversed prefix in the
original text is `revPre`. -/
def repl (revPre s : List Char) (convert_fn : Int → Except String String) :
    Except String (List Char) :=
  if precededByMinus revPre then .ok s
  else if decide (1 < s.length) && (s.head? == some '0') then .ok s
  else
    match parsePyInt s with
    | none => .ok s
    | some n =>
      if 0 ≤ n ∧ n ≤ 1000 then (convert_fn n).map String.toList
      else .ok s

/-- Handle a completed maximal digit run `run`: it is a match of `\b\d+\b`
exactly when the character before it (`revPre.head?`) and the character after
it (`next`) are absent or not word characters; matches go through `repl`,
non-matches are emitted verbatim. -/
def processRun (revPre run : List Char) (next : Option Char)
    (convert_fn : Int → Except String String) : Except String (List Char) :=
  if run = [] then .ok []
  else if !(revPre.head?.any isWordChar) && !(next.any isWordChar) then
    repl revPre run convert_fn
  else .ok run

/-- Left-to-right scanner realising `re.sub(r"\b\d+\b", repl, text)`:
`revPre` is the already-scanned text before the current digit run, reversed;
`run` is the digit run read so far; `rest` is the unscanned input. -/
def scanAux (convert_fn : Int → Except String String) :
    (revPre run rest : List Char) → Except String (List Char)
  | revPre, run, [] => processRun revPre run none convert_fn
  | revPre, run, c :: cs =>
    if isDigitChar c then scanAux convert_fn revPre (run ++ [c]) cs
    else
      match processRun revPre run (some c) convert_fn,
          scanAux convert_fn (c :: (run.reverse ++ revPre)) [] cs with
      | .ok seg, .ok tail => .ok (seg ++ c :: tail)
      | .error e, _ => .error e
      | .ok _, .error e => .error e

/-- Model of `replace_numbers_in_text` (source lines 82-120). -/
def replace_numbers_in_text (text : List Char)
    (convert_fn : Int → Except String String) : Except String (List Char) :=
  scanAux convert_fn [] [] text

/-- The Pure-Python fallback path of `normalize_text` (source line 179). -/
def normalize_text_fallback (sentence : List Char) : Except String (List Char) :=
  replace_numbers_in_text sentence number_to_words

/-- State of the external Pynini engine and `grammar.far` artifact, the
collaborators `load_fst_and_normalize` probes: whether the import succeeds,
whether the archive file exists, whether opening it succeeds, and the named
transducers it holds (each modelled as a partial per-token rewrite, `none`
standing for a raised rewrite failure). -/
structure FstEnv where
  pyniniAvailable : Bool
  farExists : Bool
  farOpenOk : Bool
  entries : List (String × (String → Option String))

/-- Archive-member selection of `load_fst_and_normalize` (source lines
141-149): the entry named `normalize` when present, otherwise the first
entry, otherwise nothing. -/
def chosenFst (env : FstEnv) : Option (String → Option String) :=
  match env.entries.find? (fun e => e.1 == "normalize") with
  | some e => some e.2
  | none => env.entries.head?.map (fun e => e.2)

/-- Model of `apply_fst_to_token` (source lines 155-160): a per-token rewrite
failure is caught and the token returned unchanged. -/
def apply_fst_to_token (f : String → Option String) (tok : String) : String :=
  match f tok with
  | some w => w
  | none => tok

/-- Model of `load_fst_and_normalize` (source lines 123-164): `none` models the
`return None` paths (missing engine, missing artifact, failed open, empty
archive), which make the caller fall back. -/
def load_fst_and_normalize (env : FstEnv) (sentence : List Char) :
    Option (Except String (List Char)) :=
  if !env.pyniniAvailable then none
  else if !env.farExists then none
  else if !env.farOpenOk then none
  else
    match chosenFst env with
    | none => none
    | some f =>
      some (replace_numbers_in_text sentence
        (fun n => .ok (apply_fst_to_token f (toString n))))

/-- Model of `normalize_text` (source lines 167-179), parameterised by the
state of the external engine and artifact. -/
def normalize_text (env : FstEnv) (sentence : List Char) :
    Except String (List Char) :=
  match load_fst_and_normalize env sentence with
  | some r => r
  | none => replace_numbers_in_text sentence number_to_words

/-! ## Spec-side definitions

`specWordForm` transcribes the recursive algorithm of spec section 4.1 word
for word, to be compared with the source-derived `number_to_words`.  The
three tables are the standard English names the spec's examples pin down. -/

/-- The spec's "10-entry unit table". -/
def specUnitTable : List String :=
  ["zero", "one", "two", "three", "four", "five", "six", "seven", "eight", "nine"]

/-- The spec's "10-entry teens table (irregular forms)". -/
def specTeensTable : List String :=
  ["ten", "eleven", "twelve", "thirteen", "fourteen", "fifteen", "sixteen",
   "seventeen", "eighteen", "nineteen"]

/-- The spec's tens-table names. -/
def specTensTable : List String :=
  ["", "", "twenty", "thirty", "forty", "fifty", "sixty", "seventy", "eighty", "ninety"]

/-- The spec algorithm restricted to the 1-99 remainders reached by its
recursive call, written out so that `specWordForm` is structurally
recursive. -/
def specTwoDigit (n : Nat) : String :=
  if 10 ≤ n ∧ n ≤ 19 then specTeensTable.getD (n - 10) ""
  else if 20 ≤ n ∧ n ≤ 99 then
    if n % 10 = 0 then specTensTable.getD (n / 10) ""
    else specTensTable.getD (n / 10) "" ++ "-" ++ specUnitTable.getD (n % 10) ""
  else specUnitTable.getD n ""

/-- Modelled from the spec, section 4.1: the recursive word-form algorithm.
1000 is the literal "one thousand"; 0 is "zero"; 1-9 use the unit table;
10-19 the teens table; 20-99 the tens name alone on multiples of ten and
otherwise tens and units joined by a hyphen; 100-999 produce
"unit hundred" on multiples of one hundred and otherwise
"unit hundred " followed by the word form of the remainder. -/
def specWordForm (n : Nat) : String :=
  if n = 1000 then "one thousand"
  else if n = 0 then "zero"
  else if n ≤ 9 then specUnitTable.getD n ""
  else if 10 ≤ n ∧ n ≤ 19 then specTeensTable.getD (n - 10) ""
  else if 20 ≤ n ∧ n ≤ 99 then
    if n % 10 = 0 then specTensTable.getD (n / 10) ""
    else specTensTable.getD (n / 10) "" ++ "-" ++ specUnitTable.getD (n % 10) ""
  else
    if n % 100 = 0 then specUnitTable.getD (n / 100) "" ++ " hundred"
    else specUnitTable.getD (n / 100) "" ++ " hundred " ++ specTwoDigit (n % 100)

/-! ## Segment decomposition

`segments text` decomposes the input into single characters emitted verbatim
and matched, eligible tokens to be substituted.  It depends only on the input
text, never on the conversion function, and is proven below to drive
`replace_numbers_in_text` exactly. -/

/-- One piece of the scanned input: a character passed through verbatim, or a
matched eligible digit token that gets substituted. -/
inductive Seg where
  | keep (c : Char)
  | subst (tok : List Char)
deriving DecidableEq, Repr

/-- The three eligibility checks of `repl`, as a predicate on a matched token
and the reversed text before it: no preceding minus sign, no multi-digit
leading zero, and a parsed value between 0 and 1000. -/
def eligible (revPre tok : List Char) : Bool :=
  !precededByMinus revPre &&
  !(decide (1 < tok.length) && (tok.head? == some '0')) &&
  (match parsePyInt tok with
   | none => false
   | some n => decide (0 ≤ n ∧ n ≤ 1000))

/-- Segments contributed by a completed maximal digit run: a single
substituted token when the run matches `\b\d+\b` and passes the eligibility
checks, otherwise its characters verbatim. -/
def runSegs (revPre run : List Char) (next : Option Char) : List Seg :=
  if run = [] then []
  else if (!(revPre.head?.any isWordChar) && !(next.any isWordChar)) &&
      eligible revPre run then
    [.subst run]
  else run.map .keep

/-- Segment analogue of `scanAux`, recording the decomposition instead of
producing output. -/
def segmentsAux : (revPre run rest : List Char) → List Seg
  | revPre, run, [] => runSegs revPre run none
  | revPre, run, c :: cs =>
    if isDigitChar c then segmentsAux revPre (run ++ [c]) cs
    else
      runSegs revPre run (some c) ++
        .keep c :: segmentsAux (c :: (run.reverse ++ revPre)) [] cs

/-- The segment decomposition of a whole input text. -/
def segments (text : List Char) : List Seg := segmentsAux [] [] text

/-- The input characters covered by a segment. -/
def segText : Seg → List Char
  | .keep c => [c]
  | .subst tok => tok

/-- Flattening a decomposition back into the input it covers. -/
def flattenIn (segs : List Seg) : List Char :=
  (segs.map segText).flatten

/-- Output of one segment under a conversion function. -/
def renderSeg (convert_fn : Int → Except String String) :
    Seg → Except String (List Char)
  | .keep c => .ok [c]
  | .subst tok => (convert_fn ((natOfDigits tok : Nat) : Int)).map String.toList

/-- Output of a decomposition under a conversion function. -/
def renderOut (convert_fn : Int → Except String String) :
    List Seg → Except String (List Char)
  | [] => .ok []
  | s :: rest =>
    match renderSeg convert_fn s, renderOut convert_fn rest with
    | .ok a, .ok b => .ok (a ++ b)
    | .error e, _ => .error e
    | .ok _, .error e => .error e

/-- Output of a decomposition under the pure-Python fallback converter. -/
def outText (segs : List Seg) : List Char :=
  (segs.map fun s =>
    match s with
    | .keep c => [c]
    | .subst tok => (number_to_words_core (natOfDigits tok)).toList).flatten

/-! ## Basic character-class and parsing lemmas -/

theorem space_not_digit {c : Char} (h : pyIsSpace c = true) : isDigitChar c = false := by
  rw [pyIsSpace, List.any_eq_true] at h
  obtain ⟨w, hw, hwc⟩ := h
  obtain rfl : w = c := beq_iff_eq.mp hwc
  have hall : pyWhitespaceTable.all (fun a => !(isDigitChar a)) = true := by decide
  have := List.all_eq_true.mp hall w hw
  simpa using this

theorem digit_not_space {c : Char} (h : isDigitChar c = true) : pyIsSpace c = false := by
  cases hs : pyIsSpace c
  · rfl
  · rw [space_not_digit hs] at h
    cases h

theorem digit_ne {c d : Char} (h : isDigitChar c = true) (hd : isDigitChar d = false) :
    c ≠ d := by
  intro e
  subst e
  rw [h] at hd
  cases hd

theorem dropWhile_space_of_digit {l : List Char} (h : l.all isDigitChar = true) :
    l.dropWhile pyIsSpace = l := by
  cases l with
  | nil => rfl
  | cons c cs =>
    rw [List.all_cons, Bool.and_eq_true] at h
    rw [List.dropWhile_cons, digit_not_space h.1]
    simp

theorem stripPy_of_digit {l : List Char} (h : l.all isDigitChar = true) :
    stripPy l = l := by
  unfold stripPy
  rw [dropWhile_space_of_digit h, dropWhile_space_of_digit (by rw [List.all_reverse]; exact h),
    List.reverse_reverse]

theorem digitsUnderAux_of_digit {l : List Char} (h : l.all isDigitChar = true) :
    digitsUnderAux l = true := by
  induction l with
  | nil => rfl
  | cons c cs ih =>
    rw [List.all_cons, Bool.and_eq_true] at h
    unfold digitsUnderAux
    have hne : (c == '_') = false := by
      rw [Bool.eq_false_iff]
      intro hb
      exact digit_ne h.1 (by decide) (beq_iff_eq.mp hb)
    rw [hne]
    simp [h.1, ih h.2]

theorem filter_underscore_of_digit {l : List Char} (h : l.all isDigitChar = true) :
    (l.filter fun c => !(c == '_')) = l := by
  refine List.filter_eq_self.mpr ?_
  intro a ha
  have hd := List.all_eq_true.mp h a ha
  simp only [Bool.not_eq_eq_eq_not, Bool.not_true, Bool.eq_false_iff]
  intro hb
  exact digit_ne hd (by decide) (beq_iff_eq.mp hb)

/-- On the tokens the scanner produces (non-empty digit runs), the modelled
Python `int()` succeeds with the run's value exactly when the run does not
exceed the conversion digit limit, and raises beyond it. -/
theorem parsePyInt_digit_run {tok : List Char} (hne : tok ≠ [])
    (hd : tok.all isDigitChar = true) :
    parsePyInt tok = if tok.length ≤ pyIntMaxStrDigits
      then some ((natOfDigits tok : Nat) : Int) else none := by
  obtain ⟨c, cs, rfl⟩ := List.exists_cons_of_ne_nil hne
  have hc : isDigitChar c = true := by
    rw [List.all_cons, Bool.and_eq_true] at hd
    exact hd.1
  unfold parsePyInt
  rw [stripPy_of_digit hd]
  have h1 : ((c :: cs).head? = some '-') = False := by
    simp only [List.head?_cons, Option.some.injEq, eq_iff_iff, iff_false]
    exact digit_ne hc (by decide)
  have h2 : ((c :: cs).head? = some '+') = False := by
    simp only [List.head?_cons, Option.some.injEq, eq_iff_iff, iff_false]
    exact digit_ne hc (by decide)
  have h3 : pyIntLiteralValid (c :: cs) = true := by
    unfold pyIntLiteralValid
    rw [List.all_cons, Bool.and_eq_true] at hd
    simp [hd.1, digitsUnderAux_of_digit hd.2]
  simp only [h1, h2, if_false, h3, if_true, filter_underscore_of_digit hd]
  by_cases hl : (c :: cs).length ≤ pyIntMaxStrDigits
  · rw [if_pos hl, pyIntValue, if_neg (Nat.not_lt.mpr hl)]
  · rw [if_neg hl, pyIntValue, if_pos (Nat.not_le.mp hl)]

/-- Within the conversion digit limit, the parse just returns the run's
value. -/
theorem parsePyInt_digit_run_le {tok : List Char} (hne : tok ≠ [])
    (hd : tok.all isDigitChar = true) (hl : tok.length ≤ pyIntMaxStrDigits) :
    parsePyInt tok = some ((natOfDigits tok : Nat) : Int) := by
  rw [parsePyInt_digit_run hne hd, if_pos hl]

/-- Characterisation of `repl` on scanner tokens: the token is replaced by the
conversion output exactly when all three eligibility checks pass, and is
returned verbatim otherwise. -/
theorem repl_digit_run {revPre tok : List Char} {convert_fn : Int → Except String String}
    (hne : tok ≠ []) (hd : tok.all isDigitChar = true) :
    repl revPre tok convert_fn =
      if eligible revPre tok then
        (convert_fn ((natOfDigits tok : Nat) : Int)).map String.toList
      else .ok tok := by
  by_cases hl : tok.length ≤ pyIntMaxStrDigits
  · unfold repl eligible
    rw [parsePyInt_digit_run_le hne hd hl]
    have hr : (0 ≤ ((natOfDigits tok : Nat) : Int) ∧ ((natOfDigits tok : Nat) : Int) ≤ 1000)
        ↔ ((natOfDigits tok : Nat) : Int) ≤ 1000 := by
      constructor
      · exact fun h => h.2
      · exact fun h => ⟨Int.natCast_nonneg _, h⟩
    by_cases hm : precededByMinus revPre
    · simp [hm]
    · by_cases hz : (decide (1 < tok.length) && (tok.head? == some '0')) = true
      · simp [hm, hz]
      · by_cases hv : ((natOfDigits tok : Nat) : Int) ≤ 1000
        · simp [hm, hz, hr, hv]
        · simp [hm, hz, hr, hv]
  · unfold repl eligible
    rw [parsePyInt_digit_run hne hd, if_neg hl]
    by_cases hm : precededByMinus revPre
    · simp [hm]
    · by_cases hz : (decide (1 < tok.length) && (tok.head? == some '0')) = true
      · simp [hm, hz]
      · simp [hm, hz]

/-! ## Flattening and rendering lemmas -/

theorem flattenIn_nil : flattenIn [] = [] := rfl

theorem flattenIn_cons (s : Seg) (rest : List Seg) :
    flattenIn (s :: rest) = segText s ++ flattenIn rest := by
  simp [flattenIn]

theorem flattenIn_append (a b : List Seg) :
    flattenIn (a ++ b) = flattenIn a ++ flattenIn b := by
  simp [flattenIn]

theorem flattenIn_map_keep (l : List Char) : flattenIn (l.map .keep) = l := by
  induction l with
  | nil => rfl
  | cons c cs ih => simp [flattenIn_cons, segText, ih]

theorem flattenIn_runSegs (revPre run : List Char) (next : Option Char) :
    flattenIn (runSegs revPre run next) = run := by
  unfold runSegs
  by_cases h : run = []
  · simp [h, flattenIn_nil]
  · rw [if_neg h]
    by_cases hb : (!(revPre.head?.any isWordChar) && !(next.any isWordChar)) &&
        eligible revPre run
    · simp [hb, flattenIn_cons, segText, flattenIn_nil]
    · simp [hb, flattenIn_map_keep]

/-- The decomposition reconstructs exactly the scanned input. -/
theorem flattenIn_segmentsAux :
    ∀ (rest revPre run : List Char),
      flattenIn (segmentsAux revPre run rest) = run ++ rest := by
  intro rest
  induction rest with
  | nil =>
    intro revPre run
    rw [segmentsAux, flattenIn_runSegs, List.append_nil]
  | cons c cs ih =>
    intro revPre run
    rw [segmentsAux]
    by_cases h : isDigitChar c
    · rw [if_pos h, ih]
      simp
    · rw [if_neg h, flattenIn_append, flattenIn_runSegs, flattenIn_cons]
      rw [ih]
      simp [segText]

theorem flattenIn_segments (text : List Char) : flattenIn (segments text) = text := by
  rw [segments, flattenIn_segmentsAux]
  rfl

theorem renderOut_map_keep (convert_fn : Int → Except String String) (l : List Char) :
    renderOut convert_fn (l.map .keep) = .ok l := by
  induction l with
  | nil => rfl
  | cons c cs ih => rw [List.map_cons, renderOut, ih]; rfl

theorem renderOut_append (convert_fn : Int → Except String String) (a b : List Seg) :
    renderOut convert_fn (a ++ b) =
      match renderOut convert_fn a, renderOut convert_fn b with
      | .ok x, .ok y => .ok (x ++ y)
      | .error e, _ => .error e
      | .ok _, .error e => .error e := by
  induction a with
  | nil =>
    cases hb : renderOut convert_fn b <;> simp [renderOut, hb]
  | cons s rest ih =>
    rw [List.cons_append, renderOut, ih, renderOut]
    cases hs : renderSeg convert_fn s <;>
      cases hr : renderOut convert_fn rest <;>
        cases hb : renderOut convert_fn b <;> simp

/-- `processRun` agrees with rendering the segments the run contributes. -/
theorem processRun_eq_renderOut {revPre run : List Char} {next : Option Char}
    {convert_fn : Int → Except String String} (hd : run.all isDigitChar = true) :
    processRun revPre run next convert_fn =
      renderOut convert_fn (runSegs revPre run next) := by
  unfold processRun runSegs
  by_cases h : run = []
  · simp [h, renderOut]
  · rw [if_neg h, if_neg h]
    by_cases hb : (!(revPre.head?.any isWordChar) && !(next.any isWordChar)) = true
    · rw [hb, if_pos rfl, Bool.true_and]
      rw [repl_digit_run h hd]
      by_cases he : eligible revPre run
      · rw [if_pos he, if_pos he, renderOut, renderSeg, renderOut]
        cases hc : convert_fn ((natOfDigits run : Nat) : Int) <;> simp [Except.map]
      · rw [if_neg he, if_neg he, renderOut_map_keep]
    · rw [Bool.not_eq_true] at hb
      rw [hb]
      simp [renderOut_map_keep]

/-- The scanner is exactly rendering of the convert-independent decomposition:
one left-to-right pass whose token structure never depends on the conversion
function or its output. -/
theorem scanAux_eq_renderOut (convert_fn : Int → Except String String) :
    ∀ (rest revPre run : List Char), run.all isDigitChar = true →
      scanAux convert_fn revPre run rest =
        renderOut convert_fn (segmentsAux revPre run rest) := by
  intro rest
  induction rest with
  | nil =>
    intro revPre run hd
    rw [scanAux, segmentsAux, processRun_eq_renderOut hd]
  | cons c cs ih =>
    intro revPre run hd
    rw [scanAux, segmentsAux]
    by_cases h : isDigitChar c
    · rw [if_pos h, if_pos h]
      exact ih revPre (run ++ [c]) (by simp [List.all_append, hd, h])
    · rw [if_neg h, if_neg h, renderOut_append]
      rw [processRun_eq_renderOut hd, renderOut]
      rw [ih (c :: (run.reverse ++ revPre)) [] rfl]
      cases hs : renderOut convert_fn (runSegs revPre run (some c)) <;>
        cases ht : renderOut convert_fn (segmentsAux (c :: (run.reverse ++ revPre)) [] cs) <;>
          simp [renderSeg]

/-- Top-level form: `replace_numbers_in_text` renders the decomposition. -/
theorem replace_eq_renderOut (text : List Char) (convert_fn : Int → Except String String) :
    replace_numbers_in_text text convert_fn = renderOut convert_fn (segments text) :=
  scanAux_eq_renderOut convert_fn text [] [] rfl

/-! ## Totality: the scan never fails when the converter is total in range -/

theorem repl_isOk {revPre s : List Char} {convert_fn : Int → Except String String}
    (h : ∀ n : Int, 0 ≤ n → n ≤ 1000 → ∃ w, convert_fn n = .ok w) :
    ∃ out, repl revPre s convert_fn = .ok out := by
  unfold repl
  split
  · exact ⟨_, rfl⟩
  · split
    · exact ⟨_, rfl⟩
    · split
      · exact ⟨_, rfl⟩
      · split
        · next n _ hn =>
          obtain ⟨w, hw⟩ := h n hn.1 hn.2
          rw [hw]
          exact ⟨_, rfl⟩
        · exact ⟨_, rfl⟩

theorem processRun_isOk {revPre run : List Char} {next : Option Char}
    {convert_fn : Int → Except String String}
    (h : ∀ n : Int, 0 ≤ n → n ≤ 1000 → ∃ w, convert_fn n = .ok w) :
    ∃ out, processRun revPre run next convert_fn = .ok out := by
  unfold processRun
  split
  · exact ⟨_, rfl⟩
  · split
    · exact repl_isOk h
    · exact ⟨_, rfl⟩

theorem scanAux_isOk {convert_fn : Int → Except String String}
    (h : ∀ n : Int, 0 ≤ n → n ≤ 1000 → ∃ w, convert_fn n = .ok w) :
    ∀ (rest revPre run : List Char), ∃ out, scanAux convert_fn revPre run rest = .ok out := by
  intro rest
  induction rest with
  | nil => intro revPre run; exact processRun_isOk h
  | cons c cs ih =>
    intro revPre run
    rw [scanAux]
    split
    · exact ih revPre (run ++ [c])
    · obtain ⟨a, ha⟩ := @processRun_isOk revPre run (some c) _ h
      obtain ⟨b, hb⟩ := ih (c :: (run.reverse ++ revPre)) []
      rw [ha, hb]
      exact ⟨_, rfl⟩

theorem number_to_words_in_range_ok :
    ∀ n : Int, 0 ≤ n → n ≤ 1000 → ∃ w, number_to_words n = .ok w := by
  intro n h0 h1
  exact ⟨_, by rw [number_to_words, if_pos ⟨h0, h1⟩]⟩

/-! ## Congruence: the scan only consults the converter on in-range values -/

theorem repl_congr {revPre s : List Char} {c₁ c₂ : Int → Except String String}
    (h : ∀ n : Int, 0 ≤ n → n ≤ 1000 → c₁ n = c₂ n) :
    repl revPre s c₁ = repl revPre s c₂ := by
  unfold repl
  split
  · rfl
  · split
    · rfl
    · split
      · rfl
      · split
        · next n _ hn => rw [h n hn.1 hn.2]
        · rfl

theorem processRun_congr {revPre run : List Char} {next : Option Char}
    {c₁ c₂ : Int → Except String String}
    (h : ∀ n : Int, 0 ≤ n → n ≤ 1000 → c₁ n = c₂ n) :
    processRun revPre run next c₁ = processRun revPre run next c₂ := by
  unfold processRun
  split
  · rfl
  · split
    · exact repl_congr h
    · rfl

theorem scanAux_congr {c₁ c₂ : Int → Except String String}
    (h : ∀ n : Int, 0 ≤ n → n ≤ 1000 → c₁ n = c₂ n) :
    ∀ (rest revPre run : List Char), scanAux c₁ revPre run rest = scanAux c₂ revPre run rest := by
  intro rest
  induction rest with
  | nil => intro revPre run; rw [scanAux, scanAux]; exact processRun_congr h
  | cons c cs ih =>
    intro revPre run
    rw [scanAux, scanAux]
    split
    · exact ih revPre (run ++ [c])
    · rw [@processRun_congr revPre run (some c) _ _ h, ih (c :: (run.reverse ++ revPre)) []]

/-! ## Soundness of the decomposition: substituted segments -/

theorem runSegs_eq_cases (revPre run : List Char) (next : Option Char) :
    (runSegs revPre run next = [Seg.subst run] ∧ run ≠ [] ∧
      (revPre.head?.any isWordChar) = false ∧ (next.any isWordChar) = false ∧
      eligible revPre run = true) ∨
    runSegs revPre run next = run.map Seg.keep := by
  unfold runSegs
  by_cases h : run = []
  · right
    simp [h]
  · rw [if_neg h]
    by_cases hb : ((!(revPre.head?.any isWordChar) && !(next.any isWordChar)) &&
        eligible revPre run) = true
    · left
      have hb' := hb
      rw [Bool.and_eq_true, Bool.and_eq_true, Bool.not_eq_true', Bool.not_eq_true'] at hb'
      exact ⟨by rw [if_pos hb], h, hb'.1.1, hb'.1.2, hb'.2⟩
    · right
      rw [if_neg hb]

theorem map_keep_split :
    ∀ (l : List Char) (B pre suf : List Seg) (tok : List Char),
      l.map Seg.keep ++ B = pre ++ Seg.subst tok :: suf →
      ∃ pre₂, pre = l.map Seg.keep ++ pre₂ ∧ B = pre₂ ++ Seg.subst tok :: suf := by
  intro l
  induction l with
  | nil =>
    intro B pre suf tok h
    exact ⟨pre, by simp, h⟩
  | cons c cs ih =>
    intro B pre suf tok h
    cases pre with
    | nil =>
      rw [List.map_cons, List.cons_append, List.nil_append] at h
      cases h
    | cons p pre' =>
      rw [List.map_cons, List.cons_append, List.cons_append] at h
      obtain ⟨h1, h2⟩ := List.cons.inj h
      obtain ⟨pre₂, hp, hB⟩ := ih B pre' suf tok h2
      exact ⟨pre₂, by rw [List.map_cons, List.cons_append, hp, h1], hB⟩

theorem reverse_ctx_shift (run F revPre : List Char) (c : Char) :
    (run ++ c :: F).reverse ++ revPre = F.reverse ++ (c :: (run.reverse ++ revPre)) := by
  simp

/-- Every substituted segment of the decomposition is a non-empty digit run
whose neighbouring characters (if any) are not word characters, and which
passes all three eligibility checks with respect to the text before it. -/
theorem segmentsAux_subst_sound :
    ∀ (rest revPre run : List Char), run.all isDigitChar = true →
      ∀ (pre suf : List Seg) (tok : List Char),
        segmentsAux revPre run rest = pre ++ Seg.subst tok :: suf →
        tok ≠ [] ∧ tok.all isDigitChar = true ∧
        (((flattenIn pre).reverse ++ revPre).head?.any isWordChar) = false ∧
        (((flattenIn suf).head?.any isWordChar) = false) ∧
        eligible ((flattenIn pre).reverse ++ revPre) tok = true := by
  intro rest
  induction rest with
  | nil =>
    intro revPre run hrun pre suf tok h
    rw [segmentsAux] at h
    rcases runSegs_eq_cases revPre run none with ⟨he, hne, hb1, _, hel⟩ | he
    · rw [he] at h
      cases pre with
      | nil =>
        rw [List.nil_append] at h
        obtain ⟨h1, h2⟩ := List.cons.inj h
        obtain rfl : run = tok := Seg.subst.inj h1
        obtain rfl : suf = ([] : List Seg) := h2.symm
        exact ⟨hne, hrun, by simpa [flattenIn_nil] using hb1, by simp [flattenIn_nil],
          by simpa [flattenIn_nil] using hel⟩
      | cons p pre' =>
        rw [List.cons_append] at h
        obtain ⟨_, h2⟩ := List.cons.inj h
        exact absurd h2.symm (by simp)
    · rw [he] at h
      obtain ⟨pre₂, _, hB⟩ := map_keep_split run [] pre suf tok (by rw [List.append_nil]; exact h)
      exact absurd hB.symm (by simp)
  | cons c cs ih =>
    intro revPre run hrun pre suf tok h
    rw [segmentsAux] at h
    by_cases hc : isDigitChar c
    · rw [if_pos hc] at h
      exact ih revPre (run ++ [c]) (by simp [List.all_append, hrun, hc]) pre suf tok h
    · rw [if_neg hc] at h
      rcases runSegs_eq_cases revPre run (some c) with ⟨he, hne, hb1, hb2, hel⟩ | he
      · rw [he, List.singleton_append] at h
        cases pre with
        | nil =>
          rw [List.nil_append] at h
          obtain ⟨h1, h2⟩ := List.cons.inj h
          obtain rfl : run = tok := Seg.subst.inj h1
          refine ⟨hne, hrun, by simpa [flattenIn_nil] using hb1, ?_,
            by simpa [flattenIn_nil] using hel⟩
          rw [← h2, flattenIn_cons]
          simpa [segText] using hb2
        | cons p pre' =>
          rw [List.cons_append] at h
          obtain ⟨h1, h2⟩ := List.cons.inj h
          obtain rfl : p = Seg.subst run := h1.symm
          obtain ⟨pre₂, hp, hB⟩ :=
            map_keep_split [c] (segmentsAux (c :: (run.reverse ++ revPre)) [] cs) pre' suf tok
              (by rw [List.map_cons, List.map_nil, List.cons_append, List.nil_append]; exact h2)
          obtain ⟨hne', hd', hb1', hb2', hel'⟩ :=
            ih (c :: (run.reverse ++ revPre)) [] rfl pre₂ suf tok hB
          subst hp
          have hflat : flattenIn (Seg.subst run :: ([c].map Seg.keep ++ pre₂)) =
              run ++ c :: flattenIn pre₂ := by
            rw [flattenIn_cons, flattenIn_append, flattenIn_map_keep]
            simp [segText]
          refine ⟨hne', hd', ?_, hb2', ?_⟩
          · rw [hflat, reverse_ctx_shift]
            exact hb1'
          · rw [hflat, reverse_ctx_shift]
            exact hel'
      · rw [he] at h
        have h' : (run ++ [c]).map Seg.keep ++ segmentsAux (c :: (run.reverse ++ revPre)) [] cs =
            pre ++ Seg.subst tok :: suf := by
          rw [List.map_append, List.map_cons, List.map_nil, List.append_assoc,
            List.singleton_append]
          exact h
        obtain ⟨pre₂, hp, hB⟩ := map_keep_split (run ++ [c]) _ pre suf tok h'
        obtain ⟨hne', hd', hb1', hb2', hel'⟩ :=
          ih (c :: (run.reverse ++ revPre)) [] rfl pre₂ suf tok hB
        subst hp
        have hflat : flattenIn ((run ++ [c]).map Seg.keep ++ pre₂) =
            run ++ c :: flattenIn pre₂ := by
          rw [flattenIn_append, flattenIn_map_keep]
          simp
        refine ⟨hne', hd', ?_, hb2', ?_⟩
        · rw [hflat, reverse_ctx_shift]
          exact hb1'
        · rw [hflat, reverse_ctx_shift]
          exact hel'

/-! ## Completeness of the decomposition: eligible matched runs are substituted -/

theorem segmentsAux_absorb :
    ∀ (d : List Char), d.all isDigitChar = true →
      ∀ (revPre run rest : List Char),
        segmentsAux revPre run (d ++ rest) = segmentsAux revPre (run ++ d) rest := by
  intro d
  induction d with
  | nil =>
    intro _ revPre run rest
    rw [List.nil_append, List.append_nil]
  | cons e es ih =>
    intro hd revPre run rest
    rw [List.all_cons, Bool.and_eq_true] at hd
    rw [List.cons_append, segmentsAux, if_pos hd.1, ih hd.2]
    simp

/-- Executable check of the word-shape facts idempotence rests on: the word
form is non-empty, contains no digit, and ends in a letter. -/
def wordShapeOk (n : Nat) : Bool :=
  let w := (number_to_words_core n).toList
  !w.isEmpty && w.all (fun c => !(isDigitChar c)) &&
    (match w.reverse.head? with
     | some b => b.isAlpha
     | none => false)

set_option maxRecDepth 40000 in
set_option maxHeartbeats 4000000 in
theorem wordShapeOk_all : ∀ n : Nat, n ≤ 1000 → wordShapeOk n = true := by
  decide

theorem core_ne_nil {n : Nat} (h : n ≤ 1000) : (number_to_words_core n).toList ≠ [] := by
  have hw := wordShapeOk_all n h
  unfold wordShapeOk at hw
  rw [Bool.and_eq_true, Bool.and_eq_true] at hw
  have := hw.1.1
  simpa [List.isEmpty_iff] using this

theorem core_no_digit {n : Nat} (h : n ≤ 1000) :
    ((number_to_words_core n).toList).all (fun c => !(isDigitChar c)) = true := by
  have hw := wordShapeOk_all n h
  unfold wordShapeOk at hw
  rw [Bool.and_eq_true, Bool.and_eq_true] at hw
  exact hw.1.2

theorem core_last_alpha {n : Nat} (h : n ≤ 1000) {b : Char} {B : List Char}
    (hr : ((number_to_words_core n).toList).reverse = b :: B) : b.isAlpha = true := by
  have hw := wordShapeOk_all n h
  unfold wordShapeOk at hw
  rw [Bool.and_eq_true, Bool.and_eq_true] at hw
  have := hw.2
  rw [hr] at this
  simpa using this

theorem alpha_is_word {c : Char} (h : c.isAlpha = true) : isWordChar c = true := by
  simp [isWordChar, Char.isAlphanum, h]

theorem alpha_not_space {c : Char} (h : c.isAlpha = true) : pyIsSpace c = false := by
  cases hs : pyIsSpace c
  · rfl
  · rw [pyIsSpace, List.any_eq_true] at hs
    obtain ⟨w, hw, hwc⟩ := hs
    obtain rfl : w = c := beq_iff_eq.mp hwc
    have hall : pyWhitespaceTable.all (fun a => !(a.isAlpha)) = true := by decide
    have := List.all_eq_true.mp hall w hw
    rw [h] at this
    cases this

theorem alpha_ne_minus {c : Char} (h : c.isAlpha = true) : c ≠ '-' := by
  intro e
  subst e
  cases h

theorem digit_ne_minus {c : Char} (h : isDigitChar c = true) : c ≠ '-' :=
  digit_ne h (by decide)

/-! ## The correspondence relation between first-pass and second-pass contexts -/

/-- The two observations the scanner makes about the text to the left of the
current position: whether the adjacent character is a word character, and
whether the negation scan finds a minus sign. -/
def Rrel (r₁ r₂ : List Char) : Prop :=
  (r₁.head?.any isWordChar) = (r₂.head?.any isWordChar) ∧
    precededByMinus r₁ = precededByMinus r₂

theorem Rrel_nil : Rrel [] [] := ⟨rfl, rfl⟩

theorem eligible_congr {r₁ r₂ tok : List Char} (h : Rrel r₁ r₂) :
    eligible r₁ tok = eligible r₂ tok := by
  unfold eligible
  rw [h.2]

theorem Rrel_prepend (x : List Char) {r₁ r₂ : List Char} (h : Rrel r₁ r₂) :
    Rrel (x ++ r₁) (x ++ r₂) := by
  constructor
  · cases x with
    | nil => exact h.1
    | cons c cs => rfl
  · unfold precededByMinus
    rw [List.dropWhile_append, List.dropWhile_append]
    by_cases he : (x.dropWhile pyIsSpace).isEmpty
    · rw [if_pos he, if_pos he]
      exact h.2
    · rw [if_neg he, if_neg he]
      cases hd : x.dropWhile pyIsSpace with
      | nil => rw [hd] at he; exact absurd rfl he
      | cons d ds => rfl

theorem Rrel_cons_cons {a b : Char} {A B : List Char} (c : Char)
    (hsa : pyIsSpace a = false) (hsb : pyIsSpace b = false)
    (hma : a ≠ '-') (hmb : b ≠ '-') :
    Rrel (c :: (a :: A)) (c :: (b :: B)) := by
  constructor
  · rfl
  · unfold precededByMinus
    by_cases hcs : pyIsSpace c = true
    · simp [List.dropWhile_cons, hcs, hsa, hsb, hma, hmb]
    · rw [Bool.not_eq_true] at hcs
      simp [List.dropWhile_cons, hcs]

/-! ## Output-text lemmas and helpers for the second pass -/

theorem outText_nil : outText [] = [] := rfl

theorem outText_cons_keep (c : Char) (segs : List Seg) :
    outText (Seg.keep c :: segs) = c :: outText segs := by
  simp [outText]

theorem outText_cons_subst (tok : List Char) (segs : List Seg) :
    outText (Seg.subst tok :: segs) =
      (number_to_words_core (natOfDigits tok)).toList ++ outText segs := by
  simp [outText]

theorem outText_append (a b : List Seg) : outText (a ++ b) = outText a ++ outText b := by
  simp [outText]

theorem outText_map_keep (l : List Char) : outText (l.map Seg.keep) = l := by
  induction l with
  | nil => rfl
  | cons c cs ih => rw [List.map_cons, outText_cons_keep, ih]

theorem eligible_value_le {revPre tok : List Char} (hne : tok ≠ [])
    (hd : tok.all isDigitChar = true) (h : eligible revPre tok = true) :
    natOfDigits tok ≤ 1000 := by
  unfold eligible at h
  rw [parsePyInt_digit_run hne hd, Bool.and_eq_true] at h
  have h2 := h.2
  by_cases hl : tok.length ≤ pyIntMaxStrDigits
  · rw [if_pos hl, decide_eq_true_iff] at h2
    exact_mod_cast h2.2
  · rw [if_neg hl] at h2
    cases h2

theorem head?_dropWhile_digit :
    ∀ (l : List Char) (c : Char), (l.dropWhile isDigitChar).head? = some c →
      isDigitChar c = false := by
  intro l
  induction l with
  | nil => intro c h; cases h
  | cons a as ih =>
    intro c h
    rw [List.dropWhile_cons] at h
    by_cases ha : isDigitChar a = true
    · rw [if_pos ha] at h
      exact ih c h
    · rw [if_neg ha] at h
      obtain rfl : a = c := by simpa using h
      exact Bool.not_eq_true _ |>.mp ha

theorem runSegs_nil_run (revPre : List Char) (next : Option Char) :
    runSegs revPre [] next = [] := by
  simp [runSegs]

theorem runSegs_of_cond_true {revPre run : List Char} {next : Option Char}
    (hne : run ≠ [])
    (h : ((!(revPre.head?.any isWordChar) && !(next.any isWordChar)) &&
      eligible revPre run) = true) :
    runSegs revPre run next = [Seg.subst run] := by
  unfold runSegs
  rw [if_neg hne, if_pos h]

theorem runSegs_of_cond_false {revPre run : List Char} {next : Option Char}
    (h : ((!(revPre.head?.any isWordChar) && !(next.any isWordChar)) &&
      eligible revPre run) = false) :
    runSegs revPre run next = run.map Seg.keep := by
  unfold runSegs
  by_cases hne : run = []
  · simp [hne]
  · rw [if_neg hne, h]
    simp

/-- Scanning a digit-free block emits it verbatim, character by character. -/
theorem segmentsAux_nodigit_block :
    ∀ (x : List Char), x.all (fun c => !(isDigitChar c)) = true →
      ∀ (revPre t : List Char),
        segmentsAux revPre [] (x ++ t) =
          x.map Seg.keep ++ segmentsAux (x.reverse ++ revPre) [] t := by
  intro x
  induction x with
  | nil => intro _ revPre t; simp
  | cons c cs ih =>
    intro hx revPre t
    rw [List.all_cons, Bool.and_eq_true] at hx
    have hc : isDigitChar c = false := by simpa using hx.1
    rw [List.cons_append, segmentsAux, if_neg (by rw [hc]; exact Bool.false_ne_true),
      runSegs_nil_run, List.nil_append, List.reverse_nil, List.nil_append,
      ih hx.2 (c :: revPre) t]
    simp

/-! ## Second-pass simulation: scanning the output finds nothing to convert -/

theorem segmentsAux_nil_rest (revPre run : List Char) :
    segmentsAux revPre run [] = runSegs revPre run none := by
  rw [segmentsAux]

theorem segmentsAux_cons_nondigit {c : Char} (hc : isDigitChar c = false)
    (revPre cs : List Char) :
    segmentsAux revPre [] (c :: cs) = Seg.keep c :: segmentsAux (c :: revPre) [] cs := by
  rw [segmentsAux, if_neg (by rw [hc]; exact Bool.false_ne_true), runSegs_nil_run,
    List.nil_append, List.reverse_nil, List.nil_append]

theorem segmentsAux_run_nondigit {c : Char} (hc : isDigitChar c = false)
    (revPre run cs : List Char) :
    segmentsAux revPre run (c :: cs) =
      runSegs revPre run (some c) ++
        Seg.keep c :: segmentsAux (c :: (run.reverse ++ revPre)) [] cs := by
  rw [segmentsAux, if_neg (by rw [hc]; exact Bool.false_ne_true)]

theorem segmentsAux_enter_run {run : List Char} (h : run.all isDigitChar = true)
    (revPre rest : List Char) :
    segmentsAux revPre [] (run ++ rest) = segmentsAux revPre run rest := by
  rw [segmentsAux_absorb run h revPre [] rest, List.nil_append]

theorem segmentsAux_outText_nil (revS revO : List Char) :
    segmentsAux revO [] (outText (segmentsAux revS [] [])) =
      (outText (segmentsAux revS [] [])).map Seg.keep := by
  rw [segmentsAux_nil_rest, runSegs_nil_run, outText_nil, segmentsAux_nil_rest,
    runSegs_nil_run]
  rfl

/-- Scanning the output of a first pass again substitutes nothing: every
maximal digit run of the output is a kept run of the input reaching the same
verdict, and substituted words contain no digits. -/
theorem segmentsAux_outText_keep :
    ∀ (N : Nat) (rest : List Char), rest.length ≤ N →
      ∀ (revS revO : List Char), Rrel revS revO →
        segmentsAux revO [] (outText (segmentsAux revS [] rest)) =
          (outText (segmentsAux revS [] rest)).map Seg.keep := by
  intro N
  induction N with
  | zero =>
    intro rest hlen revS revO _
    obtain rfl : rest = [] := List.length_eq_zero.mp (Nat.le_zero.mp hlen)
    exact segmentsAux_outText_nil revS revO
  | succ N ih =>
    intro rest hlen revS revO hR
    cases rest with
    | nil => exact segmentsAux_outText_nil revS revO
    | cons c cs =>
      by_cases hc : isDigitChar c = true
      · have hrun_all : (c :: cs.takeWhile isDigitChar).all isDigitChar = true := by
          rw [List.all_cons, Bool.and_eq_true]
          exact ⟨hc, List.all_eq_true.mpr fun a ha => List.mem_takeWhile_imp ha⟩
        have habs : segmentsAux revS [] (c :: cs) =
            segmentsAux revS (c :: cs.takeWhile isDigitChar) (cs.dropWhile isDigitChar) := by
          conv_lhs =>
            rw [show c :: cs = (c :: cs.takeWhile isDigitChar) ++ cs.dropWhile isDigitChar by
              rw [List.cons_append, List.takeWhile_append_dropWhile]]
          rw [segmentsAux_enter_run hrun_all]
        have hcs_len : cs.length ≤ N := Nat.le_of_succ_le_succ hlen
        rw [habs]
        cases hrest2 : cs.dropWhile isDigitChar with
        | nil =>
          rw [segmentsAux_nil_rest]
          by_cases hcond : ((!(revS.head?.any isWordChar) &&
              !((none : Option Char).any isWordChar)) &&
              eligible revS (c :: cs.takeWhile isDigitChar)) = true
          · rw [runSegs_of_cond_true (List.cons_ne_nil c _) hcond]
            rw [outText_cons_subst, outText_nil, List.append_nil]
            have hv : natOfDigits (c :: cs.takeWhile isDigitChar) ≤ 1000 := by
              rw [Bool.and_eq_true] at hcond
              exact eligible_value_le (List.cons_ne_nil c _) hrun_all hcond.2
            have hpref := segmentsAux_nodigit_block _ (core_no_digit hv) revO []
            rw [List.append_nil] at hpref
            rw [hpref, segmentsAux_nil_rest, runSegs_nil_run, List.append_nil]
          · rw [Bool.not_eq_true] at hcond
            rw [runSegs_of_cond_false hcond, outText_map_keep]
            rw [show (c :: cs.takeWhile isDigitChar) =
                (c :: cs.takeWhile isDigitChar) ++ ([] : List Char) from (List.append_nil _).symm]
            rw [segmentsAux_enter_run hrun_all, segmentsAux_nil_rest, List.append_nil]
            refine runSegs_of_cond_false ?_
            rw [← hR.1, ← eligible_congr hR]
            exact hcond
        | cons c' cs' =>
          have hc' : isDigitChar c' = false :=
            head?_dropWhile_digit cs c' (by rw [hrest2]; rfl)
          have hcs'_len : cs'.length ≤ N := by
            have h1 : (c' :: cs').length ≤ cs.length := by
              rw [← hrest2]
              exact List.Sublist.length_le (List.dropWhile_sublist _)
            have h2 : cs'.length < cs.length := Nat.lt_of_succ_le (by simpa using h1)
            exact Nat.le_of_lt_succ (Nat.lt_of_lt_of_le h2 (Nat.le_succ_of_le hcs_len))
          rw [segmentsAux_run_nondigit hc']
          by_cases hcond : ((!(revS.head?.any isWordChar) &&
              !((some c').any isWordChar)) &&
              eligible revS (c :: cs.takeWhile isDigitChar)) = true
          · rw [runSegs_of_cond_true (List.cons_ne_nil c _) hcond, List.singleton_append,
              outText_cons_subst, outText_cons_keep]
            have hv : natOfDigits (c :: cs.takeWhile isDigitChar) ≤ 1000 := by
              rw [Bool.and_eq_true] at hcond
              exact eligible_value_le (List.cons_ne_nil c _) hrun_all hcond.2
            rw [segmentsAux_nodigit_block _ (core_no_digit hv) revO _,
              segmentsAux_cons_nondigit hc']
            obtain ⟨a, A, hrev⟩ : ∃ a A, (c :: cs.takeWhile isDigitChar).reverse = a :: A := by
              cases hx : (c :: cs.takeWhile isDigitChar).reverse with
              | nil =>
                rw [List.reverse_eq_nil_iff] at hx
                exact absurd hx (List.cons_ne_nil c _)
              | cons a A => exact ⟨a, A, rfl⟩
            obtain ⟨b, B, hrevw⟩ :
                ∃ b B, ((number_to_words_core
                  (natOfDigits (c :: cs.takeWhile isDigitChar))).toList).reverse = b :: B := by
              cases hx : ((number_to_words_core
                  (natOfDigits (c :: cs.takeWhile isDigitChar))).toList).reverse with
              | nil =>
                rw [List.reverse_eq_nil_iff] at hx
                exact absurd hx (core_ne_nil hv)
              | cons b B => exact ⟨b, B, rfl⟩
            have hadig : isDigitChar a = true := by
              refine List.all_eq_true.mp hrun_all a ?_
              rw [← List.mem_reverse, hrev]
              exact List.mem_cons_self a A
            have hbalpha : b.isAlpha = true := core_last_alpha hv hrevw
            have hR' : Rrel (c' :: ((c :: cs.takeWhile isDigitChar).reverse ++ revS))
                (c' :: (((number_to_words_core
                  (natOfDigits (c :: cs.takeWhile isDigitChar))).toList).reverse ++ revO)) := by
              rw [hrev, hrevw, List.cons_append, List.cons_append]
              exact Rrel_cons_cons c' (digit_not_space hadig) (alpha_not_space hbalpha)
                (digit_ne_minus hadig) (alpha_ne_minus hbalpha)
            rw [ih cs' hcs'_len _ _ hR']
            simp
          · rw [Bool.not_eq_true] at hcond
            rw [runSegs_of_cond_false hcond, outText_append, outText_map_keep,
              outText_cons_keep]
            rw [show (c :: cs.takeWhile isDigitChar) ++ c' ::
                outText (segmentsAux (c' :: ((c :: cs.takeWhile isDigitChar).reverse ++ revS))
                  [] cs') = (c :: cs.takeWhile isDigitChar) ++ (c' ::
                outText (segmentsAux (c' :: ((c :: cs.takeWhile isDigitChar).reverse ++ revS))
                  [] cs')) from rfl]
            rw [segmentsAux_enter_run hrun_all, segmentsAux_run_nondigit hc']
            have hocond : ((!(revO.head?.any isWordChar) &&
                !((some c').any isWordChar)) &&
                eligible revO (c :: cs.takeWhile isDigitChar)) = false := by
              rw [← hR.1, ← eligible_congr hR]
              exact hcond
            rw [runSegs_of_cond_false hocond]
            have hR' : Rrel (c' :: ((c :: cs.takeWhile isDigitChar).reverse ++ revS))
                (c' :: ((c :: cs.takeWhile isDigitChar).reverse ++ revO)) := by
              rw [show c' :: ((c :: cs.takeWhile isDigitChar).reverse ++ revS) =
                  (c' :: (c :: cs.takeWhile isDigitChar).reverse) ++ revS from rfl,
                show c' :: ((c :: cs.takeWhile isDigitChar).reverse ++ revO) =
                  (c' :: (c :: cs.takeWhile isDigitChar).reverse) ++ revO from rfl]
              exact Rrel_prepend _ hR
            rw [ih cs' hcs'_len _ _ hR']
            simp
      · rw [Bool.not_eq_true] at hc
        rw [segmentsAux_cons_nondigit hc, outText_cons_keep, segmentsAux_cons_nondigit hc]
        have hR' : Rrel (c :: revS) (c :: revO) := by
          rw [show c :: revS = [c] ++ revS from rfl, show c :: revO = [c] ++ revO from rfl]
          exact Rrel_prepend [c] hR
        rw [ih cs (Nat.le_of_succ_le_succ hlen) _ _ hR']
        rw [List.map_cons]

/-! ## Glue: the fallback normaliser in terms of the decomposition -/

theorem renderOut_fallback_eq_outText :
    ∀ (segs : List Seg), (∀ tok, Seg.subst tok ∈ segs → natOfDigits tok ≤ 1000) →
      renderOut number_to_words segs = .ok (outText segs) := by
  intro segs
  induction segs with
  | nil => intro _; rfl
  | cons s rest ih =>
    intro h
    have hrest := ih fun tok htok => h tok (List.mem_cons_of_mem s htok)
    cases s with
    | keep c =>
      rw [renderOut, hrest, outText_cons_keep]
      rfl
    | subst tok =>
      have hv : natOfDigits tok ≤ 1000 := h tok (List.mem_cons_self _ _)
      have hx : number_to_words ((natOfDigits tok : Nat) : Int) =
          .ok (number_to_words_core (natOfDigits tok)) := by
        rw [number_to_words, if_pos ⟨Int.natCast_nonneg _, by exact_mod_cast hv⟩,
          Int.toNat_natCast]
      rw [renderOut, renderSeg, hx, hrest, outText_cons_subst]
      rfl

theorem segments_subst_value_le (text : List Char) :
    ∀ tok, Seg.subst tok ∈ segments text → natOfDigits tok ≤ 1000 := by
  intro tok hmem
  obtain ⟨pre, suf, hdecomp⟩ := List.append_of_mem hmem
  obtain ⟨hne, hd, _, _, hel⟩ := segmentsAux_subst_sound text [] [] rfl pre suf tok hdecomp
  exact eligible_value_le hne hd hel

theorem normalize_text_fallback_eq_outText (s : List Char) :
    normalize_text_fallback s = .ok (outText (segments s)) := by
  rw [normalize_text_fallback, replace_eq_renderOut]
  exact renderOut_fallback_eq_outText _ (segments_subst_value_le s)

theorem normalize_text_fallback_fixed (s : List Char) :
    normalize_text_fallback (outText (segments s)) = .ok (outText (segments s)) := by
  rw [normalize_text_fallback, replace_eq_renderOut]
  simp only [segments]
  rw [segmentsAux_outText_keep (s.length) s le_rfl [] [] Rrel_nil, renderOut_map_keep]

/-- Decidable equality for `Except`, needed to evaluate the embedded
functions on concrete inputs. -/
instance {ε α : Type} [DecidableEq ε] [DecidableEq α] : DecidableEq (Except ε α) := fun a b =>
  match a, b with
  | .ok x, .ok y =>
    if h : x = y then isTrue (by rw [h]) else isFalse (fun he => h (Except.ok.inj he))
  | .error e, .error f =>
    if h : e = f then isTrue (by rw [h]) else isFalse (fun he => h (Except.error.inj he))
  | .ok _, .error _ => isFalse (fun he => Except.noConfusion he)
  | .error _, .ok _ => isFalse (fun he => Except.noConfusion he)

/-! ## Claim theorems -/

set_option maxRecDepth 40000 in
set_option maxHeartbeats 4000000 in
/-- C1: for every integer n with 0 ≤ n ≤ 1000, `number_to_words` returns
exactly the word form computed by the spec's recursive algorithm
(`specWordForm`): 1000 is "one thousand", 0 is "zero", 1-9 the unit name,
10-19 the teens name, 20-99 the tens name alone or tens-hyphen-units, and
100-999 "unit hundred" plus, for a non-zero remainder, a space and the word
form of the remainder, with no "and". -/
theorem claim_C1_converter_matches_spec :
    ∀ n : Nat, n ≤ 1000 → number_to_words (n : Int) = .ok (specWordForm n) := by
  decide

/-- Witness for C1 at n = 245. -/
theorem claim_C1_converter_matches_spec_witness :
    245 ≤ 1000 ∧ number_to_words ((245 : Nat) : Int) = .ok (specWordForm 245) :=
  ⟨by decide, claim_C1_converter_matches_spec 245 (by decide)⟩

/-- C7: the transformation is span-preserving outside substituted tokens: the
input decomposes into segments whose flattening is exactly the input, and the
output of `replace_numbers_in_text` renders that same decomposition, so every
character outside substituted token spans passes through verbatim, in order. -/
theorem claim_C7_span_preserving :
    ∀ (text : List Char) (convert_fn : Int → Except String String),
      flattenIn (segments text) = text ∧
      replace_numbers_in_text text convert_fn = renderOut convert_fn (segments text) :=
  fun text convert_fn => ⟨flattenIn_segments text, replace_eq_renderOut text convert_fn⟩

/-- C8: `number_to_words` fails with the range-violation domain error exactly
when its argument lies outside 0 ≤ n ≤ 1000, and succeeds with a word string
exactly when the argument is in range. -/
theorem claim_C8_domain_error_iff_out_of_range :
    ∀ n : Int,
      ((∃ w, number_to_words n = .ok w) ↔ (0 ≤ n ∧ n ≤ 1000)) ∧
      (number_to_words n = .error "number out of range (0-1000)" ↔
        ¬(0 ≤ n ∧ n ≤ 1000)) := by
  intro n
  by_cases h : 0 ≤ n ∧ n ≤ 1000
  · simp [number_to_words, h]
  · simp [number_to_words, h]

/-- Variant of `repl` whose integer-parse failure branch is replaced by an
error, used to express that the `except ValueError` handler of the source is
dead code on scanner tokens. -/
def replNoCatch (revPre s : List Char) (convert_fn : Int → Except String String) :
    Except String (List Char) :=
  if precededByMinus revPre then .ok s
  else if decide (1 < s.length) && (s.head? == some '0') then .ok s
  else
    match parsePyInt s with
    | none => .error "unreachable: int() cannot fail on a digit token"
    | some n =>
      if 0 ≤ n ∧ n ≤ 1000 then (convert_fn n).map String.toList
      else .ok s

/-- C10 as amended: on every token the scanner's digit pattern can match (a
non-empty run of decimal digits) whose length does not exceed CPython's
integer-string conversion digit limit of 4300, the modelled `int()` parse
succeeds with the run's value, so on such tokens the `except ValueError`
branch of `repl` is dead code: `repl` coincides with the variant that errors
in that branch.  Beyond the limit `int()` raises and the handler runs — see
the counterexample. -/
theorem claim_C10_parse_branch_dead :
    ∀ (tok : List Char), tok ≠ [] → tok.all isDigitChar = true →
      tok.length ≤ pyIntMaxStrDigits →
      parsePyInt tok = some ((natOfDigits tok : Nat) : Int) ∧
      (∀ (revPre : List Char) (convert_fn : Int → Except String String),
        repl revPre tok convert_fn = replNoCatch revPre tok convert_fn) := by
  intro tok hne hd hl
  refine ⟨parsePyInt_digit_run_le hne hd hl, ?_⟩
  intro revPre convert_fn
  unfold repl replNoCatch
  rw [parsePyInt_digit_run_le hne hd hl]

/-- Witness for C10 at the token "42". -/
theorem claim_C10_parse_branch_dead_witness :
    parsePyInt ['4', '2'] = some ((natOfDigits ['4', '2'] : Nat) : Int) ∧
    repl [] ['4', '2'] number_to_words = replNoCatch [] ['4', '2'] number_to_words :=
  ⟨(claim_C10_parse_branch_dead ['4', '2'] (by decide) (by decide) (by decide)).1,
   (claim_C10_parse_branch_dead ['4', '2'] (by decide) (by decide) (by decide)).2
     [] number_to_words⟩

/-- C10 counterexample: a 4301-digit token is matched by the scanner's digit
pattern, yet `int()` raises on it (integer-string conversion digit limit),
so the `except ValueError` handler runs and returns the token verbatim —
the handler is not dead code for all inputs. -/
theorem claim_C10_counterexample :
    parsePyInt (List.replicate 4301 '1') = none ∧
    repl [] (List.replicate 4301 '1') number_to_words = .ok (List.replicate 4301 '1') ∧
    replNoCatch [] (List.replicate 4301 '1') number_to_words =
      .error "unreachable: int() cannot fail on a digit token" := by
  have hd : (List.replicate 4301 '1').all isDigitChar = true := by
    rw [List.all_eq_true]
    intro a ha
    rw [List.eq_of_mem_replicate ha]
    decide
  have hne : List.replicate 4301 '1' ≠ [] := by
    intro h
    have := congrArg List.length h
    rw [List.length_replicate] at this
    cases this
  have hp : parsePyInt (List.replicate 4301 '1') = none := by
    rw [parsePyInt_digit_run hne hd, List.length_replicate,
      if_neg (by rw [pyIntMaxStrDigits]; decide)]
  have hhead : (List.replicate 4301 '1').head? = some '1' := by
    rw [show (4301 : Nat) = 4300 + 1 from rfl, List.replicate_succ, List.head?_cons]
  have hz : (decide (1 < (List.replicate 4301 '1').length) &&
      ((List.replicate 4301 '1').head? == some '0')) = false := by
    rw [hhead, show ((some '1' == some '0') = false) from by decide, Bool.and_false]
  refine ⟨hp, ?_, ?_⟩
  · unfold repl
    rw [if_neg (by decide : ¬(precededByMinus [] = true)), hz, hp]
    rw [if_neg (fun h => Bool.false_ne_true h)]
  · unfold replNoCatch
    rw [if_neg (by decide : ¬(precededByMinus [] = true)), hz, hp]
    rw [if_neg (fun h => Bool.false_ne_true h)]

/-- C2: `normalize_text` is total: whatever the state of the external engine
and artifact, and for every input string, it returns a string and never
propagates an error — in particular the converter's domain error is
unreachable through text normalization, because the scanner's range check
only ever applies the conversion function to values 0 ≤ n ≤ 1000. -/
theorem claim_C2_normalize_total :
    ∀ (env : FstEnv) (text : List Char), ∃ out, normalize_text env text = .ok out := by
  intro env text
  rw [normalize_text]
  cases hl : load_fst_and_normalize env text with
  | none => exact scanAux_isOk number_to_words_in_range_ok text [] []
  | some r =>
    rw [load_fst_and_normalize] at hl
    split at hl
    · cases hl
    · split at hl
      · cases hl
      · split at hl
        · cases hl
        · split at hl
          · cases hl
          · obtain rfl := Option.some.inj hl
            exact scanAux_isOk (fun n _ _ => ⟨_, rfl⟩) text [] []

/-- C3: replacement happens exactly at eligibility.  The scan renders a
decomposition computed from the text alone (a single left-to-right pass whose
token structure never depends on the conversion output, so replacements are
not re-scanned); on every matched token, `repl` substitutes
`convert_fn(value)` exactly when all three checks pass and returns the token
verbatim otherwise; "0" is eligible and converts to "zero", while "0123"
(multi-digit leading zero) and "1001" (out of range) are ineligible and kept
verbatim. -/
theorem claim_C3_replacement_iff_eligible :
    (∀ (text : List Char) (convert_fn : Int → Except String String),
      replace_numbers_in_text text convert_fn = renderOut convert_fn (segments text)) ∧
    (∀ (revPre tok : List Char) (convert_fn : Int → Except String String),
      tok ≠ [] → tok.all isDigitChar = true →
      repl revPre tok convert_fn =
        if eligible revPre tok then
          (convert_fn ((natOfDigits tok : Nat) : Int)).map String.toList
        else .ok tok) ∧
    eligible [] ['0'] = true ∧
    eligible [] ['0', '1', '2', '3'] = false ∧
    eligible [] ['1', '0', '0', '1'] = false ∧
    normalize_text_fallback "0".toList = .ok "zero".toList ∧
    normalize_text_fallback "0123".toList = .ok "0123".toList ∧
    normalize_text_fallback "1001".toList = .ok "1001".toList := by
  refine ⟨replace_eq_renderOut, ?_, by decide, by decide, by decide, by decide,
    by decide, by decide⟩
  intro revPre tok convert_fn hne hd
  exact repl_digit_run hne hd

/-- Witness for C3 on the token "42". -/
theorem claim_C3_replacement_iff_eligible_witness :
    (['4', '2'] ≠ ([] : List Char)) ∧ ['4', '2'].all isDigitChar = true ∧
    repl [] ['4', '2'] number_to_words =
      if eligible [] ['4', '2'] then
        (number_to_words ((natOfDigits ['4', '2'] : Nat) : Int)).map String.toList
      else .ok ['4', '2'] :=
  ⟨by decide, by decide,
   claim_C3_replacement_iff_eligible.2.1 [] ['4', '2'] number_to_words (by decide) (by decide)⟩

/-- C4: a digit token whose nearest non-whitespace character to the left is a
minus sign is never substituted (so, with the flattening fact, it appears
verbatim in the output), regardless of the amount of whitespace between the
sign and the digits; in particular "I have -5 apples." and "- 5" are returned
unchanged. -/
theorem claim_C4_negation_suppression :
    (∀ (text : List Char) (convert_fn : Int → Except String String),
      replace_numbers_in_text text convert_fn = renderOut convert_fn (segments text) ∧
      flattenIn (segments text) = text ∧
      ∀ (pre suf : List Seg) (tok : List Char),
        segments text = pre ++ Seg.subst tok :: suf →
        precededByMinus (flattenIn pre).reverse = false) ∧
    normalize_text_fallback "I have -5 apples.".toList = .ok "I have -5 apples.".toList ∧
    normalize_text_fallback "- 5".toList = .ok "- 5".toList := by
  refine ⟨?_, by decide, by decide⟩
  intro text convert_fn
  refine ⟨replace_eq_renderOut text convert_fn, flattenIn_segments text, ?_⟩
  intro pre suf tok h
  obtain ⟨_, _, _, _, hel⟩ := segmentsAux_subst_sound text [] [] rfl pre suf tok h
  rw [List.append_nil] at hel
  unfold eligible at hel
  rw [Bool.and_eq_true, Bool.and_eq_true] at hel
  have := hel.1.1
  rw [Bool.not_eq_true'] at this
  exact this

/-- Witness for C4 on the text "7". -/
theorem claim_C4_negation_suppression_witness :
    (segments "7".toList = [] ++ Seg.subst ['7'] :: []) ∧
    precededByMinus (flattenIn []).reverse = false :=
  ⟨by decide,
   (claim_C4_negation_suppression.1 "7".toList number_to_words).2.2 [] [] ['7'] (by decide)⟩

/-- C6 as amended: the pure-Python path of normalization is idempotent:
whenever one fallback pass maps s to o, a second fallback pass maps o to
itself, because substituted output words contain no digits and every kept
digit run reaches the same (negative) verdict again.  With the accelerated
path active, an artifact whose lookup rewrites digits to digits makes
`normalize_text` non-idempotent — see the counterexample. -/
theorem claim_C6_normalize_idempotent :
    ∀ (s o : List Char), normalize_text_fallback s = .ok o →
      normalize_text_fallback o = .ok o := by
  intro s o h
  rw [normalize_text_fallback_eq_outText s] at h
  obtain rfl : o = outText (segments s) := (Except.ok.inj h).symm
  exact normalize_text_fallback_fixed s

/-- Witness for C6 on "I have 3 dogs". -/
theorem claim_C6_normalize_idempotent_witness :
    normalize_text_fallback "I have 3 dogs".toList = .ok "I have three dogs".toList ∧
    normalize_text_fallback "I have three dogs".toList = .ok "I have three dogs".toList :=
  ⟨by decide,
   claim_C6_normalize_idempotent "I have 3 dogs".toList "I have three dogs".toList (by decide)⟩

/-- An engine/artifact state whose transducer rewrites the digit tokens "5"
and "6" to other digits. -/
def envDigitShift : FstEnv :=
  ⟨true, true, true,
   [("normalize", fun s =>
      if s == "5" then some "6" else if s == "6" then some "7" else none)]⟩

/-- C6 counterexample: with the accelerated path active and a lookup that
rewrites digits to digits, normalize maps "5" to "6" and "6" to "7", so a
second application changes the first one's output: the unrestricted
idempotence claim fails once the accelerated path is in play. -/
theorem claim_C6_counterexample :
    normalize_text envDigitShift "5".toList = .ok "6".toList ∧
    normalize_text envDigitShift "6".toList = .ok "7".toList ∧
    normalize_text envDigitShift "6".toList ≠ .ok "6".toList := by
  refine ⟨by decide, by decide, by decide⟩

/-- An engine/artifact state in which everything loads but the selected
transducer misses on every token. -/
def envTokenMiss : FstEnv :=
  ⟨true, true, true, [("normalize", fun _ => none)]⟩

/-- C9 counterexample: with a loaded archive whose transducer misses on the
token "5", the accelerated path leaves the digits verbatim while the fallback
converts them, so a per-token conversion miss does not trigger fallback
conversion and the two paths are visibly different. -/
theorem claim_C9_counterexample :
    normalize_text envTokenMiss "5".toList = .ok "5".toList ∧
    normalize_text_fallback "5".toList = .ok "five".toList ∧
    normalize_text envTokenMiss "5".toList ≠ normalize_text_fallback "5".toList := by
  refine ⟨by decide, by decide, ?_⟩
  decide

set_option maxRecDepth 40000 in
set_option maxHeartbeats 4000000 in
theorem parse_print_roundtrip :
    ∀ m : Nat, m ≤ 1000 → parsePyInt (toString ((m : Nat) : Int)).toList = some ((m : Nat) : Int) := by
  decide

/-- A lookup that agrees with the fallback converter on all in-range values. -/
def goodLookup : String → Option String := fun s =>
  match parsePyInt s.toList with
  | some n => if 0 ≤ n ∧ n ≤ 1000 then some (number_to_words_core n.toNat) else none
  | none => none

theorem goodLookup_agrees :
    ∀ n : Int, 0 ≤ n → n ≤ 1000 →
      goodLookup (toString n) = some (number_to_words_core n.toNat) := by
  intro n h0 h1
  obtain ⟨m, rfl⟩ := Int.eq_ofNat_of_zero_le h0
  have hm : m ≤ 1000 := by exact_mod_cast h1
  rw [goodLookup]
  rw [parse_print_roundtrip m hm]
  simp [h0, h1]

/-- An engine/artifact state whose transducer agrees with the fallback. -/
def envGood : FstEnv :=
  ⟨true, true, true, [("normalize", goodLookup)]⟩

/-- C9 amended: engine- and artifact-level faults (missing engine, missing
artifact, failed open, empty archive) are swallowed and fall back, invisible
to the caller; and whenever the selected per-token lookup succeeds with the
fallback's word on every in-range value, the accelerated path's output is
identical to the fallback's.  (A per-token miss, by contrast, leaves that
token's digits verbatim instead of converting them — see the
counterexample.) -/
theorem claim_C9_amended_equivalence :
    ∀ (env : FstEnv) (text : List Char),
      (load_fst_and_normalize env text = none →
        normalize_text env text = normalize_text_fallback text) ∧
      (∀ f, chosenFst env = some f →
        (∀ n : Int, 0 ≤ n → n ≤ 1000 →
          f (toString n) = some (number_to_words_core n.toNat)) →
        normalize_text env text = normalize_text_fallback text) := by
  intro env text
  constructor
  · intro hl
    rw [normalize_text, hl, normalize_text_fallback]
  · intro f hf hagree
    rw [normalize_text]
    cases hl : load_fst_and_normalize env text with
    | none => rw [normalize_text_fallback]
    | some r =>
      rw [load_fst_and_normalize] at hl
      split at hl
      · cases hl
      · split at hl
        · cases hl
        · split at hl
          · cases hl
          · rw [hf] at hl
            obtain rfl := Option.some.inj hl
            rw [normalize_text_fallback, replace_numbers_in_text, replace_numbers_in_text]
            refine scanAux_congr ?_ text [] []
            intro n h0 h1
            rw [number_to_words, if_pos ⟨h0, h1⟩, apply_fst_to_token, hagree n h0 h1]

/-- An engine/artifact state in which the Pynini import fails. -/
def envNoEngine : FstEnv :=
  ⟨false, true, true, []⟩

/-- Witness for the amended C9: a concrete missing-engine fault falls back
invisibly, and a concrete agreeing lookup reproduces the fallback's output. -/
theorem claim_C9_amended_equivalence_witness :
    (load_fst_and_normalize envNoEngine "I have 3 dogs".toList = none ∧
      normalize_text envNoEngine "I have 3 dogs".toList =
        normalize_text_fallback "I have 3 dogs".toList) ∧
    (chosenFst envGood = some goodLookup ∧
      normalize_text envGood "I have 3 dogs".toList =
        normalize_text_fallback "I have 3 dogs".toList) := by
  constructor
  · exact ⟨by decide,
      (claim_C9_amended_equivalence envNoEngine "I have 3 dogs".toList).1 (by decide)⟩
  · exact ⟨rfl,
      (claim_C9_amended_equivalence envGood "I have 3 dogs".toList).2 goodLookup rfl
        goodLookup_agrees⟩
